import Mathlib

/-!
Verification of the clipboard-copy aggregation engine (src/src/extension.ts).

JavaScript strings are modelled as lists of characters (`JStr`); the pure
helpers of the extension (pattern validation, glob matching with brace
expansion, hierarchical gitignore filtering, exclude-pattern building and
content aggregation) are translated function by function.  Filesystem paths
handled by Node's `path` module are modelled either as raw character lists
(where the source manipulates raw strings) or as segment lists (where the
source walks directory components).
-/

set_option maxHeartbeats 1000000

/-- A JavaScript string, modelled as its list of characters. -/
abbrev JStr := List Char

/-- `s.startsWith p` of JavaScript: `p` is a prefix of `s`. -/
def startsWithChars : JStr → JStr → Bool
  | _, [] => true
  | [], _ :: _ => false
  | c :: s, d :: p => c = d && startsWithChars s p

/-- `s.includes sub` of JavaScript: `sub` occurs contiguously in `s`. -/
def hasSubstr (sub : JStr) (s : JStr) : Bool :=
  s.tails.any (fun t => startsWithChars t sub)

/-- `s.trim()` of JavaScript: strip leading and trailing whitespace. -/
def trimChars (s : JStr) : JStr :=
  ((s.dropWhile Char.isWhitespace).reverse.dropWhile Char.isWhitespace).reverse

/-- `s.split(',')` of JavaScript: split at every comma, keeping empty parts. -/
def splitOnComma : JStr → List JStr
  | [] => [[]]
  | ',' :: rest => [] :: splitOnComma rest
  | c :: rest =>
    match splitOnComma rest with
    | [] => [[c]]
    | g :: gs => (c :: g) :: gs

theorem startsWithChars_prefix_iff (s p : JStr) :
    startsWithChars s p = true ↔ p <+: s := by
  induction p generalizing s with
  | nil => simp [startsWithChars]
  | cons d p ih =>
    cases s with
    | nil => simp [startsWithChars]
    | cons c s =>
      simp only [startsWithChars, Bool.and_eq_true, decide_eq_true_eq, ih,
        List.cons_prefix_cons]
      tauto

theorem hasSubstr_infix_iff (sub s : JStr) :
    hasSubstr sub s = true ↔ sub <:+: s := by
  simp only [hasSubstr, List.any_eq_true, List.mem_tails,
    startsWithChars_prefix_iff]
  constructor
  · rintro ⟨t, hts, hpre⟩
    exact hpre.isInfix.trans hts.isInfix
  · rintro ⟨l, r, rfl⟩
    exact ⟨sub ++ r, ⟨l, by simp⟩, r, rfl⟩

theorem splitOnComma_ne_nil (s : JStr) : splitOnComma s ≠ [] := by
  induction s with
  | nil => simp [splitOnComma]
  | cons c rest ih =>
    by_cases h : c = ','
    · subst h; simp [splitOnComma]
    · rw [show splitOnComma (c :: rest) =
        (match splitOnComma rest with
          | [] => [[c]]
          | g :: gs => (c :: g) :: gs) from by
          cases rest <;> simp_all [splitOnComma]]
      cases splitOnComma rest <;> simp

theorem splitOnComma_cons_ne (c : Char) (rest : JStr) (h : c ≠ ',') :
    splitOnComma (c :: rest) =
      match splitOnComma rest with
      | [] => [[c]]
      | g :: gs => (c :: g) :: gs := by
  cases rest <;> simp_all [splitOnComma]

/-!
## Pattern matcher (`matchesSinglePattern`, `matchesPattern`)

`matchesSinglePattern` in the source rewrites the glob into an anchored
case-insensitive regular expression: `.` is escaped, `?` becomes `.`,
`*` becomes `.*`, and bracket expressions are kept as character classes.
The resulting regex language is modelled by a token list and a backtracking
matcher.  An unterminated `[` would make the JavaScript `RegExp`
constructor throw (unreachable for validated patterns); the model treats
the bracket literally in that case.
-/

/-- One atom of the regex produced by the source's glob-to-regex rewrite. -/
inductive GlobTok where
  | lit (c : Char)
  | anyOne
  | anySeq
  | cls (cs : List Char)
deriving DecidableEq

/-- Character-range test of a regex class with the `i` flag. -/
def charInRange (lo hi c : Char) : Bool :=
  (lo.toNat ≤ c.toNat && c.toNat ≤ hi.toNat) ||
  (lo.toNat ≤ c.toLower.toNat && c.toLower.toNat ≤ hi.toNat) ||
  (lo.toNat ≤ c.toUpper.toNat && c.toUpper.toNat ≤ hi.toNat)

/-- Membership of a character in a regex class body (`[abc]`, `[a-z]`). -/
def matchClass : List Char → Char → Bool
  | [], _ => false
  | lo :: '-' :: hi :: rest, c => charInRange lo hi c || matchClass rest c
  | x :: rest, c => x.toLower = c.toLower || matchClass rest c

/-- Tokenize the glob pattern exactly as the source's regex rewrite reads it.
The fuel argument only bounds the recursion; `fuel ≥ pattern.length`. -/
def lexGlob : Nat → List Char → List GlobTok
  | 0, _ => []
  | _, [] => []
  | fuel + 1, '[' :: ps =>
    let cs := ps.takeWhile (fun c => c ≠ ']')
    match ps.dropWhile (fun c => c ≠ ']') with
    | ']' :: ps2 => GlobTok.cls cs :: lexGlob fuel ps2
    | _ => GlobTok.lit '[' :: lexGlob fuel ps
  | fuel + 1, '?' :: ps => GlobTok.anyOne :: lexGlob fuel ps
  | fuel + 1, '*' :: ps => GlobTok.anySeq :: lexGlob fuel ps
  | fuel + 1, c :: ps => GlobTok.lit c :: lexGlob fuel ps

/-- Anchored matching of the token list against a file name, with the
case-insensitive semantics of the source's `RegExp` test. -/
def matchToks : List GlobTok → JStr → Bool
  | [] => fun name => name.isEmpty
  | GlobTok.anySeq :: ts => fun name => name.tails.any (matchToks ts)
  | GlobTok.anyOne :: ts => fun name =>
    match name with
    | [] => false
    | _ :: ns => matchToks ts ns
  | GlobTok.lit c :: ts => fun name =>
    match name with
    | [] => false
    | d :: ns => c.toLower = d.toLower && matchToks ts ns
  | GlobTok.cls cs :: ts => fun name =>
    match name with
    | [] => false
    | d :: ns => matchClass cs d && matchToks ts ns

/-- `matchesSinglePattern` of the source: glob-to-regex conversion followed
by an anchored case-insensitive test against the file name. -/
def matchesSinglePattern (fileName pattern : JStr) : Bool :=
  matchToks (lexGlob pattern.length pattern) fileName

/-- Checks whether a character list begins with `{`, a nonempty run of
non-`}` characters, and `}` (the `\x7b([^\x7d]+)\x7d` part of the source's
brace regex), returning the run and the remainder. -/
def braceHere : JStr → Option (JStr × JStr)
  | '{' :: rest =>
    let opts := rest.takeWhile (fun c => c ≠ '}')
    match rest.dropWhile (fun c => c ≠ '}') with
    | '}' :: suf => if opts.isEmpty then none else some (opts, suf)
    | _ => none
  | _ => none

/-- The source's brace regex `^(.+)\x7b([^\x7d]+)\x7d(.*)$` applied to the
pattern: the greedy `(.+)` picks the last viable `{`, the options run ends
at the first following `}`.  Returns `(prefix, options, suffix)`. -/
def braceParse : JStr → Option (JStr × JStr × JStr)
  | [] => none
  | c :: rest =>
    match braceParse rest with
    | some (pre, opts, suf) => some (c :: pre, opts, suf)
    | none =>
      match braceHere rest with
      | some (opts, suf) => some ([c], opts, suf)
      | none => none

/-- `path.basename` (POSIX): the part of the path after the last `/`.
(The Node function also strips a trailing separator; the engine only ever
passes file paths, which have none.) -/
def baseNameAux : JStr → JStr → JStr
  | acc, [] => acc.reverse
  | _, '/' :: rest => baseNameAux [] rest
  | acc, c :: rest => baseNameAux (c :: acc) rest

def baseName (filePath : JStr) : JStr := baseNameAux [] filePath

/-- `matchesPattern` of the source: extract the base name, then test each
pattern, expanding a single-level brace group when the brace regex matches. -/
def matchesPattern (filePath : JStr) (patterns : List JStr) : Bool :=
  let fileName := baseName filePath
  patterns.any (fun pattern =>
    if pattern.contains '{' && pattern.contains '}' then
      match braceParse pattern with
      | some (pre, opts, suf) =>
        ((splitOnComma opts).map (fun opt => pre ++ trimChars opt ++ suf)).any
          (fun expanded => matchesSinglePattern fileName expanded)
      | none => matchesSinglePattern fileName pattern
    else matchesSinglePattern fileName pattern)

example : matchesPattern "a.js".data ["*.js".data] = true := by decide
example : matchesPattern "a.js".data ["*.py".data] = false := by decide
example : matchesPattern "x/a.JS".data ["*.js".data] = true := by decide
example : matchesPattern "b.ts".data ["*.".data ++ '{' :: "js,ts".data ++ ['}']] = true := by decide
example : matchesPattern "a.js".data ['{' :: "a,b".data ++ '}' :: ".js".data] = false := by decide
example : matchesPattern "c2.py".data ["[a-c]?.py".data] = true := by decide

/-!
## Pattern validator (`validateFilePatterns`) and its two consumers
-/

/-- A character accepted by the source's safety regex: alphanumerics and
`*`, `.`, `,`, `_`, `/`, `-`. -/
def safeChar (c : Char) : Bool :=
  c.isAlphanum || c = '*' || c = '.' || c = ',' || c = '_' || c = '/' || c = '-'

/-- The per-component checks of the source's validation loop: the component is
nonempty, every character is safe, and it has no `..`, no leading `/`, no `~`. -/
def validPattern (p : JStr) : Bool :=
  !p.isEmpty && p.all safeChar &&
    !hasSubstr ['.', '.'] p && !startsWithChars p ['/'] && !hasSubstr ['~'] p

/-- `validateFilePatterns` of the source: reject empty/whitespace-only input,
split on commas, trim each component and check every component. -/
def validateFilePatterns (patterns : JStr) : Bool :=
  if (trimChars patterns).isEmpty then false
  else ((splitOnComma patterns).map trimChars).all validPattern

/-- The pure core of `getFilePatterns` (lines 193-198): validate, then split
on commas, trim and drop empty components. -/
def parseAllowPatterns (patterns : JStr) : Option (List JStr) :=
  if validateFilePatterns patterns then
    some (((splitOnComma patterns).map trimChars).filter (fun p => !p.isEmpty))
  else none

example : validateFilePatterns "*.py,*.js,*.ts".data = true := by decide
example : validateFilePatterns "*.js,".data = false := by decide
example : validateFilePatterns "../x".data = false := by decide
example : validateFilePatterns "/etc".data = false := by decide
example : validateFilePatterns "~/x".data = false := by decide

/-!
## Exclude-pattern builder (`buildExcludePattern`)

The VS Code configuration reads are collaborators; the builder is modelled as
a function of the gathered inputs: the `respectVSCodeExcludes` flag, the
already-enabled-filtered VS Code exclude patterns (`getVSCodeExcludePatterns`
output), and the raw `customExcludePatterns` setting string.
-/

/-- Patterns contributed by the VS Code exclude settings source. -/
def vsContribution (respectVSCodeExcludes : Bool) (vscodePatterns : List JStr) :
    List JStr :=
  if respectVSCodeExcludes then vscodePatterns else []

/-- Patterns contributed by the custom exclude setting: present, nonblank and
validated by the same `validateFilePatterns`, then split/trimmed/non-empty. -/
def customContribution (custom : JStr) : List JStr :=
  if custom.isEmpty then []
  else if (trimChars custom).isEmpty then []
  else if validateFilePatterns custom then
    ((splitOnComma custom).map trimChars).filter (fun p => !p.isEmpty)
  else []

/-- `Array.from(new Set(xs))` of the source: deduplicate keeping the first
occurrence of each element, preserving order. -/
def uniqueFirstAux (seen : List JStr) : List JStr → List JStr
  | [] => []
  | x :: xs =>
    if x ∈ seen then uniqueFirstAux seen xs
    else x :: uniqueFirstAux (x :: seen) xs

def uniqueFirst (xs : List JStr) : List JStr := uniqueFirstAux [] xs

/-- `buildExcludePattern` of the source: merge the two sources, return
`undefined` when nothing was contributed, otherwise deduplicate and combine
into one recursive glob (`**/p` for one pattern, `**/{p1,...,pn}` for many). -/
def buildExcludePattern (respectVSCodeExcludes : Bool)
    (vscodePatterns : List JStr) (custom : JStr) : Option JStr :=
  let allPatterns :=
    vsContribution respectVSCodeExcludes vscodePatterns ++ customContribution custom
  if allPatterns.isEmpty then none
  else
    match uniqueFirst allPatterns with
    | [p] => some ("**/".data ++ p)
    | u => some ("**/".data ++ '{' :: List.intercalate [','] u ++ ['}'])

example : buildExcludePattern true [] [] = none := by decide
example : buildExcludePattern true ["node_modules".data] [] =
    some "**/node_modules".data := by decide
example : buildExcludePattern true ["a".data, "b".data, "a".data] [] =
    some ("**/".data ++ '{' :: "a,b".data ++ ['}']) := by decide

/-!
## Content aggregator (`readFilesContent`) and the folder-copy tail

A resource carries its workspace-relative path and the result of the
filesystem read collaborator: `some content` when `readFile` + decoding
succeed, `none` when the read throws.
-/

structure Resource where
  relPath : JStr
  readResult : Option JStr
deriving DecidableEq

/-- The per-file entry produced inside `readFilesContent`'s map. -/
structure ReadEntry where
  success : Bool
  content : JStr
  fileName : JStr
deriving DecidableEq

/-- The `--- File: <relativePath> ---\n<content>\n\n` block. -/
def headerBlock (relPath content : JStr) : JStr :=
  "--- File: ".data ++ relPath ++ " ---\n".data ++ content ++ "\n\n".data

/-- One arm of the source's `files.map(async file => ...)`: `many` is the
`files.length > 1` test of the surrounding call. -/
def readOne (many : Bool) (f : Resource) : ReadEntry :=
  match f.readResult with
  | some c =>
    ⟨true, if many then headerBlock f.relPath c else c, f.relPath⟩
  | none => ⟨false, [], f.relPath⟩

/-- The aggregation outcome `{content, errors, failedFiles}`. -/
structure AggregationOutcome where
  content : JStr
  errors : Nat
  failedFiles : List JStr
deriving DecidableEq

/-- `readFilesContent` of the source: read every file, keep the successful
blocks in order, join them, and report the failed files. -/
def readFilesContent (files : List Resource) : AggregationOutcome :=
  let results := files.map (readOne (decide (1 < files.length)))
  let successfulReads := results.filter (fun r => r.success)
  let failedReads := results.filter (fun r => !r.success)
  ⟨(successfulReads.map (fun r => r.content)).flatten,
    failedReads.length,
    failedReads.map (fun r => r.fileName)⟩

/-- The observable endings of `copyFolderToClipboard` after file selection
(lines 818-849): the no-match error, the clipboard write, or the
total-read-failure error (`READ_FAILED`). -/
inductive FolderCopyOutcome where
  | noMatchingFiles
  | copiedToClipboard (content : JStr)
  | readFailed
deriving DecidableEq

/-- Lines 818-849 of `copyFolderToClipboard`: error if no files were
selected; otherwise aggregate and branch on the truthiness of `content`. -/
def copyFolderFinish (uniqueFiles : List Resource) : FolderCopyOutcome :=
  if uniqueFiles.isEmpty then FolderCopyOutcome.noMatchingFiles
  else
    let r := readFilesContent uniqueFiles
    if r.content.isEmpty then FolderCopyOutcome.readFailed
    else FolderCopyOutcome.copiedToClipboard r.content

example :
    readFilesContent [⟨"a.js".data, some "1".data⟩, ⟨"b.py".data, some "2".data⟩] =
      ⟨"--- File: a.js ---\n1\n\n--- File: b.py ---\n2\n\n".data, 0, []⟩ := by
  decide

example : readFilesContent [⟨"a.js".data, some "1".data⟩] = ⟨"1".data, 0, []⟩ := by
  decide

/-!
## Gitignore discovery (`findAllGitignoreFiles`)

`findFiles` is a collaborator; its results are a list of candidates, each
carrying the resolved `fsPath` of a discovered `.gitignore` and the result of
reading it.  The function is the per-candidate pipeline: security gate
(`fsPath.startsWith(workspaceRoot)`), read, store under `path.dirname`.
-/

structure GitignoreCandidate where
  path : JStr
  readResult : Option JStr
deriving DecidableEq

/-- Index of the last `/` in the path, if any. -/
def lastSlashIdx : JStr → Option Nat
  | [] => none
  | c :: rest =>
    match lastSlashIdx rest with
    | some i => some (i + 1)
    | none => if c = '/' then some 0 else none

/-- `path.dirname` (POSIX): everything before the last `/`, or `.` when the
path has no separator.  (Node additionally keeps a root `/` and strips
trailing separators; irrelevant for the `<dir>/.gitignore` paths fed here.) -/
def dirNameChars (p : JStr) : JStr :=
  match lastSlashIdx p with
  | some i => p.take i
  | none => ['.']

/-- `findAllGitignoreFiles` of the source, as the map built from the
discovered candidates: drop candidates failing the workspace containment
check, drop unreadable ones, key the rest by their directory. -/
def findAllGitignoreFiles (workspaceRoot : JStr)
    (found : List GitignoreCandidate) : List (JStr × JStr) :=
  found.filterMap (fun g =>
    if startsWithChars g.path workspaceRoot then
      match g.readResult with
      | some content => some (dirNameChars g.path, content)
      | none => none
    else none)

example :
    findAllGitignoreFiles "/w".data
      [⟨"/w/a/.gitignore".data, some "*.log".data⟩,
       ⟨"/out/.gitignore".data, some "*".data⟩,
       ⟨"/w/b/.gitignore".data, none⟩] =
      [("/w/a".data, "*.log".data)] := by decide

/-!
## Hierarchical ignore filtering
(`createHierarchicalIgnoreList`, `filterFilesWithGitignore`)

Here the source walks directory components (`path.relative`, `path.sep`
splits, `path.join`), so paths are modelled as lists of segments.  The
`ignore` npm library is a collaborator: `ignore().add(content)` compiles
deterministically from the rule text, so a compiled instance is represented
by its rule text and `.ignores` by an abstract matcher
`matcher : ruleText → relativePath → Bool`.  The by-directory instance cache
only memoizes this deterministic compilation and is therefore semantically
transparent; it is omitted from the model.
-/

/-- An absolute path as its list of segments. -/
abbrev SegPath := List JStr

/-- One element of the list built by `createHierarchicalIgnoreList`:
a compiled `.gitignore` (represented by its rule text) and the directory it
lives in. -/
structure IgnoreEntry where
  content : JStr
  baseDir : SegPath
deriving DecidableEq

/-- The `Map.get` of the gitignore map, modelled on an association list. -/
def lookupDir : List (SegPath × JStr) → SegPath → Option JStr
  | [], _ => none
  | (k, v) :: rest, d => if k = d then some v else lookupDir rest d

/-- The loop of `createHierarchicalIgnoreList` that accumulates
`path.join(currentPath, part)` for each component of the relative path. -/
def dirChainAux (current : SegPath) : List JStr → List SegPath
  | [] => []
  | part :: parts => (current ++ [part]) :: dirChainAux (current ++ [part]) parts

/-- The `dirsToCheck` list: the workspace root followed by every directory on
the way down to the file's directory (`relDir` is `path.relative(workspaceRoot,
path.dirname(filePath))` split at `path.sep`). -/
def dirChain (workspaceRoot : SegPath) (relDir : List JStr) : List SegPath :=
  workspaceRoot :: dirChainAux workspaceRoot relDir

/-- `createHierarchicalIgnoreList` of the source: for each directory in the
chain that has a (truthy, i.e. non-empty) gitignore entry, emit the compiled
instance paired with its base directory. -/
def createHierarchicalIgnoreList (gitignoreMap : List (SegPath × JStr))
    (workspaceRoot : SegPath) (relDir : List JStr) : List IgnoreEntry :=
  (dirChain workspaceRoot relDir).filterMap (fun dir =>
    match lookupDir gitignoreMap dir with
    | some content => if content.isEmpty then none else some ⟨content, dir⟩
    | none => none)

/-- `relativePath.split(path.sep).join('/')` for a path below `baseDir`:
drop the base directory's segments and join with `/`. -/
def relSlashPath (baseDir : SegPath) (filePath : SegPath) : JStr :=
  List.intercalate ['/'] (filePath.drop baseDir.length)

/-- The per-file keep test inside `filterFilesWithGitignore`: the file
survives when no applicable compiled gitignore matches its path relative to
that gitignore's directory. -/
def keptByGitignore (matcher : JStr → JStr → Bool)
    (gitignoreMap : List (SegPath × JStr)) (workspaceRoot : SegPath)
    (filePath : SegPath) : Bool :=
  (createHierarchicalIgnoreList gitignoreMap workspaceRoot
      ((filePath.dropLast).drop workspaceRoot.length)).all
    (fun e => !matcher e.content (relSlashPath e.baseDir filePath))

/-- `filterFilesWithGitignore` of the source: pass everything through when the
map is empty, otherwise keep the files not ignored by any applicable
`.gitignore`. -/
def filterFilesWithGitignore (matcher : JStr → JStr → Bool)
    (files : List SegPath) (workspaceRoot : SegPath)
    (gitignoreMap : List (SegPath × JStr)) : List SegPath :=
  if gitignoreMap.isEmpty then files
  else files.filter (keptByGitignore matcher gitignoreMap workspaceRoot)

example :
    dirChain ["w".data] ["a".data, "b".data] =
      [["w".data], ["w".data, "a".data], ["w".data, "a".data, "b".data]] := by
  decide

example :
    filterFilesWithGitignore
      (fun content rel => content = "*.log".data && startsWithChars rel.reverse "gol.".data)
      [["w".data, "a".data, "x.log".data], ["w".data, "a".data, "x.txt".data]]
      ["w".data]
      [(["w".data], "*.log".data)] =
      [["w".data, "a".data, "x.txt".data]] := by decide

/-!
## Shared lemmas about the aggregator
-/

theorem contains_iff_mem (l : JStr) (c : Char) : l.contains c = true ↔ c ∈ l := by
  simp [List.contains, List.elem_iff]

theorem readOne_success (b : Bool) (f : Resource) :
    (readOne b f).success = f.readResult.isSome := by
  cases h : f.readResult <;> simp [readOne, h]

theorem headerBlock_ne_nil (p c : JStr) : headerBlock p c ≠ [] := by
  unfold headerBlock
  rw [show "--- File: ".data = '-' :: "-- File: ".data from by decide]
  simp

theorem readFilesContent_filter_success (files : List Resource) (b : Bool) :
    ((files.map (readOne b)).filter (fun r => r.success)) =
      (files.filter (fun f => f.readResult.isSome)).map (readOne b) := by
  rw [List.filter_map]
  congr 1
  apply List.filter_congr
  intro f _
  simp [Function.comp, readOne_success]

theorem readFilesContent_filter_failed (files : List Resource) (b : Bool) :
    ((files.map (readOne b)).filter (fun r => !r.success)) =
      (files.filter (fun f => f.readResult.isNone)).map (readOne b) := by
  rw [List.filter_map]
  congr 1
  apply List.filter_congr
  intro f _
  cases h : f.readResult <;> simp [Function.comp, readOne, h]

theorem readFilesContent_errors (files : List Resource) :
    (readFilesContent files).errors =
      (files.filter (fun f => f.readResult.isNone)).length := by
  simp [readFilesContent, readFilesContent_filter_failed]

theorem readFilesContent_failedFiles (files : List Resource) :
    (readFilesContent files).failedFiles =
      (files.filter (fun f => f.readResult.isNone)).map (fun f => f.relPath) := by
  simp only [readFilesContent, readFilesContent_filter_failed, List.map_map]
  apply List.map_congr_left
  intro f _
  cases h : f.readResult <;> simp [Function.comp, readOne, h]

theorem readFilesContent_content (files : List Resource) :
    (readFilesContent files).content =
      ((files.filter (fun f => f.readResult.isSome)).map
        (fun f => (readOne (decide (1 < files.length)) f).content)).flatten := by
  simp only [readFilesContent, readFilesContent_filter_success, List.map_map]
  rfl

theorem readFilesContent_content_many (files : List Resource)
    (h : 2 ≤ files.length) :
    (readFilesContent files).content =
      ((files.filter (fun f => f.readResult.isSome)).map
        (fun f => headerBlock f.relPath (f.readResult.getD []))).flatten := by
  rw [readFilesContent_content]
  congr 1
  apply List.map_congr_left
  intro f hf
  have hs : f.readResult.isSome := (List.mem_filter.mp hf).2
  obtain ⟨c, hc⟩ := Option.isSome_iff_exists.mp hs
  have hb : decide (1 < files.length) = true := by
    simp only [decide_eq_true_eq]; omega
  simp [readOne, hc, hb]

/-- C1: for a batch of two or more resources the aggregated content is the
concatenation, in resolved order, of one `--- File: <relativePath> ---\n
<content>\n\n` block per successfully read file; for a batch of exactly one
resource the content is the file's raw decoded text with no header. -/
theorem C1_aggregation_format (files : List Resource) :
    (2 ≤ files.length →
      (readFilesContent files).content =
        ((files.filter (fun f => f.readResult.isSome)).map
          (fun f => headerBlock f.relPath (f.readResult.getD []))).flatten) ∧
    (∀ r c, files = [r] → r.readResult = some c →
      (readFilesContent files).content = c) := by
  constructor
  · exact readFilesContent_content_many files
  · rintro r c rfl hc
    simp [readFilesContent, readOne, hc]

theorem C1_witness :
    2 ≤ ([⟨"a.js".data, some "1".data⟩, ⟨"b.py".data, some "2".data⟩] :
        List Resource).length ∧
    (readFilesContent
        [⟨"a.js".data, some "1".data⟩, ⟨"b.py".data, some "2".data⟩]).content =
      (([⟨"a.js".data, some "1".data⟩, ⟨"b.py".data, some "2".data⟩] :
          List Resource).filter (fun f => f.readResult.isSome) |>.map
        (fun f => headerBlock f.relPath (f.readResult.getD []))).flatten ∧
    (readFilesContent [⟨"a.js".data, some "1".data⟩]).content = "1".data :=
  ⟨by decide,
    (C1_aggregation_format _).1 (by decide),
    (C1_aggregation_format [⟨"a.js".data, some "1".data⟩]).2
      ⟨"a.js".data, some "1".data⟩ "1".data rfl rfl⟩

/-- C7: a read failure never aborts the batch: `errors` counts exactly the
failed reads, `failedFiles` lists exactly their relative paths in order, and
every successfully read file's content appears correctly delimited in the
aggregated output. -/
theorem C7_partial_failure (files : List Resource) :
    (readFilesContent files).errors =
      (files.filter (fun f => f.readResult.isNone)).length ∧
    (readFilesContent files).failedFiles =
      (files.filter (fun f => f.readResult.isNone)).map (fun f => f.relPath) ∧
    (2 ≤ files.length → ∀ f ∈ files, ∀ c, f.readResult = some c →
      ∃ pre post, (readFilesContent files).content =
        pre ++ headerBlock f.relPath c ++ post) := by
  refine ⟨readFilesContent_errors files, readFilesContent_failedFiles files, ?_⟩
  intro hlen f hf c hc
  rw [readFilesContent_content_many files hlen]
  have hmemf : f ∈ files.filter (fun f => f.readResult.isSome) :=
    List.mem_filter.mpr ⟨hf, by simp [hc]⟩
  have hmemb : headerBlock f.relPath c ∈
      (files.filter (fun f => f.readResult.isSome)).map
        (fun f => headerBlock f.relPath (f.readResult.getD [])) := by
    refine List.mem_map.mpr ⟨f, hmemf, ?_⟩
    simp [hc]
  obtain ⟨s, t, hst⟩ := List.append_of_mem hmemb
  refine ⟨s.flatten, t.flatten, ?_⟩
  rw [hst, List.flatten_append, List.flatten_cons, List.append_assoc]

theorem C7_witness :
    2 ≤ ([⟨"a.js".data, some "1".data⟩, ⟨"gone.md".data, none⟩,
          ⟨"b.py".data, some "2".data⟩] : List Resource).length ∧
    (readFilesContent [⟨"a.js".data, some "1".data⟩, ⟨"gone.md".data, none⟩,
        ⟨"b.py".data, some "2".data⟩]).errors = 1 ∧
    (readFilesContent [⟨"a.js".data, some "1".data⟩, ⟨"gone.md".data, none⟩,
        ⟨"b.py".data, some "2".data⟩]).failedFiles = ["gone.md".data] ∧
    ∃ pre post,
      (readFilesContent [⟨"a.js".data, some "1".data⟩, ⟨"gone.md".data, none⟩,
          ⟨"b.py".data, some "2".data⟩]).content =
        pre ++ headerBlock "a.js".data "1".data ++ post := by
  have h := C7_partial_failure
    [⟨"a.js".data, some "1".data⟩, ⟨"gone.md".data, none⟩,
     ⟨"b.py".data, some "2".data⟩]
  refine ⟨by decide, ?_, ?_, ?_⟩
  · rw [h.1]; decide
  · rw [h.2.1]; decide
  · exact h.2.2 (by decide) ⟨"a.js".data, some "1".data⟩ (by decide)
      "1".data rfl

/-- C6 counterexample: a single selected file that reads successfully but is
empty.  One file was successfully read, yet `copyFolderToClipboard` surfaces
the total-failure `READ_FAILED` error because it branches on the truthiness
of the aggregated content, so "error iff zero files successfully read" fails. -/
theorem C6_counterexample :
    copyFolderFinish [⟨"a.js".data, some []⟩] = FolderCopyOutcome.readFailed ∧
    (([⟨"a.js".data, some []⟩] : List Resource).filter
        (fun f => f.readResult.isSome)).length = 1 := by
  decide

/-- C6 (amended): the total-failure error is surfaced iff the aggregated
content is the empty string; for a batch of two or more selected files this
is equivalent to zero files being successfully read, and any successful read
then routes the content to the clipboard.  The error is distinguished from
the nothing-matched error, which occurs exactly when no files were selected. -/
theorem copyFolderFinish_eq (files : List Resource) :
    copyFolderFinish files =
      if files.isEmpty then FolderCopyOutcome.noMatchingFiles
      else if (readFilesContent files).content.isEmpty then
        FolderCopyOutcome.readFailed
      else FolderCopyOutcome.copiedToClipboard (readFilesContent files).content :=
  rfl

theorem C6_total_failure (files : List Resource) :
    (copyFolderFinish files = FolderCopyOutcome.readFailed ↔
      files ≠ [] ∧ (readFilesContent files).content = []) ∧
    (2 ≤ files.length →
      (copyFolderFinish files = FolderCopyOutcome.readFailed ↔
        (files.filter (fun f => f.readResult.isSome)).length = 0)) ∧
    (2 ≤ files.length →
      1 ≤ (files.filter (fun f => f.readResult.isSome)).length →
      copyFolderFinish files =
        FolderCopyOutcome.copiedToClipboard (readFilesContent files).content) ∧
    (copyFolderFinish files = FolderCopyOutcome.noMatchingFiles ↔ files = []) := by
  have hempty : ∀ (l : List Resource), l.isEmpty = true ↔ l = [] := by
    intro l; cases l <;> simp
  have hcontent : 2 ≤ files.length →
      ((readFilesContent files).content = [] ↔
        (files.filter (fun f => f.readResult.isSome)).length = 0) := by
    intro hlen
    rw [readFilesContent_content_many files hlen, List.flatten_eq_nil_iff,
      List.length_eq_zero]
    constructor
    · intro h
      by_contra hne
      obtain ⟨f, hf⟩ := List.exists_mem_of_ne_nil _ hne
      exact headerBlock_ne_nil f.relPath (f.readResult.getD [])
        (h _ (List.mem_map.mpr ⟨f, hf, rfl⟩))
    · intro h
      rw [h]
      simp
  refine ⟨?_, ?_, ?_, ?_⟩
  · rw [copyFolderFinish_eq]
    by_cases h : files.isEmpty
    · rw [if_pos h]
      simp [(hempty files).mp h]
    · rw [if_neg h]
      have hne : files ≠ [] := fun hh => h ((hempty files).mpr hh)
      by_cases hc : (readFilesContent files).content.isEmpty
      · simp_all [List.isEmpty_iff]
      · simp_all [List.isEmpty_iff]
  · intro hlen
    rw [copyFolderFinish_eq]
    have hne : ¬files.isEmpty = true := by
      intro h; rw [(hempty files).mp h] at hlen; simp at hlen
    rw [if_neg hne]
    by_cases hc : (readFilesContent files).content.isEmpty
    · have h0 := (hcontent hlen).mp (List.isEmpty_iff.mp hc)
      simp [hc, h0]
    · have h0 : ¬(files.filter (fun f => f.readResult.isSome)).length = 0 := by
        intro h
        exact hc (List.isEmpty_iff.mpr ((hcontent hlen).mpr h))
      simp [hc, h0]
  · intro hlen hsucc
    rw [copyFolderFinish_eq]
    have hne : ¬files.isEmpty = true := by
      intro h; rw [(hempty files).mp h] at hlen; simp at hlen
    have hc : ¬(readFilesContent files).content.isEmpty = true := by
      rw [List.isEmpty_iff, hcontent hlen]; omega
    rw [if_neg hne, if_neg hc]
  · rw [copyFolderFinish_eq]
    by_cases h : files.isEmpty
    · rw [if_pos h]; simp [(hempty files).mp h]
    · rw [if_neg h]
      have hne : files ≠ [] := fun hh => h ((hempty files).mpr hh)
      by_cases hc : (readFilesContent files).content.isEmpty <;>
        simp_all

theorem C6_witness :
    2 ≤ ([⟨"a.js".data, none⟩, ⟨"b.py".data, none⟩] : List Resource).length ∧
    copyFolderFinish [⟨"a.js".data, none⟩, ⟨"b.py".data, none⟩] =
      FolderCopyOutcome.readFailed ∧
    copyFolderFinish [⟨"a.js".data, some "1".data⟩, ⟨"b.py".data, none⟩] =
      FolderCopyOutcome.copiedToClipboard
        (readFilesContent
          [⟨"a.js".data, some "1".data⟩, ⟨"b.py".data, none⟩]).content := by
  refine ⟨by decide, ?_, ?_⟩
  · exact ((C6_total_failure [⟨"a.js".data, none⟩, ⟨"b.py".data, none⟩]).2.1
      (by decide)).mpr (by decide)
  · exact (C6_total_failure
      [⟨"a.js".data, some "1".data⟩, ⟨"b.py".data, none⟩]).2.2.1
      (by decide) (by decide)

/-!
## Lemmas about deduplication and the exclude builder
-/

theorem mem_uniqueFirstAux (seen l : List JStr) (x : JStr) :
    x ∈ uniqueFirstAux seen l ↔ x ∈ l ∧ x ∉ seen := by
  induction l generalizing seen with
  | nil => simp [uniqueFirstAux]
  | cons y l ih =>
    by_cases hy : y ∈ seen
    · rw [uniqueFirstAux, if_pos hy, ih]
      constructor
      · rintro ⟨hl, hs⟩
        exact ⟨List.mem_cons_of_mem _ hl, hs⟩
      · rintro ⟨hl, hs⟩
        rcases List.mem_cons.mp hl with rfl | hl
        · exact absurd hy hs
        · exact ⟨hl, hs⟩
    · rw [uniqueFirstAux, if_neg hy]
      simp only [List.mem_cons, ih, List.mem_cons]
      constructor
      · rintro (rfl | ⟨hl, hs⟩)
        · exact ⟨Or.inl rfl, hy⟩
        · exact ⟨Or.inr hl, fun h => hs (Or.inr h)⟩
      · rintro ⟨rfl | hl, hs⟩
        · exact Or.inl rfl
        · by_cases hxy : x = y
          · exact Or.inl hxy
          · exact Or.inr ⟨hl, fun h => by
              rcases h with h1 | h1
              · exact hxy h1
              · exact hs h1⟩

theorem nodup_uniqueFirstAux (seen l : List JStr) :
    (uniqueFirstAux seen l).Nodup := by
  induction l generalizing seen with
  | nil => simp [uniqueFirstAux]
  | cons y l ih =>
    by_cases hy : y ∈ seen
    · rw [uniqueFirstAux, if_pos hy]; exact ih seen
    · rw [uniqueFirstAux, if_neg hy]
      refine List.nodup_cons.mpr ⟨?_, ih (y :: seen)⟩
      intro hmem
      exact ((mem_uniqueFirstAux _ _ _).mp hmem).2 (List.mem_cons_self _ _)

theorem mem_uniqueFirst (l : List JStr) (x : JStr) :
    x ∈ uniqueFirst l ↔ x ∈ l := by
  rw [uniqueFirst, mem_uniqueFirstAux]
  simp

/-- C8: the exclude-pattern builder returns no exclusion exactly when both
sources contribute nothing; otherwise it deduplicates the merged list
(keeping first occurrences, preserving every contributed pattern) and
returns `**/<p>` for a single remaining pattern or the brace union
`**/<lbrace>p1,...,pn<rbrace>` for several. -/
theorem C8_exclude_builder (respectVSCodeExcludes : Bool)
    (vscodePatterns : List JStr) (custom : JStr) :
    (buildExcludePattern respectVSCodeExcludes vscodePatterns custom = none ↔
      vsContribution respectVSCodeExcludes vscodePatterns = [] ∧
        customContribution custom = []) ∧
    (uniqueFirst (vsContribution respectVSCodeExcludes vscodePatterns ++
        customContribution custom)).Nodup ∧
    (∀ p, p ∈ uniqueFirst (vsContribution respectVSCodeExcludes vscodePatterns ++
        customContribution custom) ↔
      p ∈ vsContribution respectVSCodeExcludes vscodePatterns ++
        customContribution custom) ∧
    (∀ p, uniqueFirst (vsContribution respectVSCodeExcludes vscodePatterns ++
          customContribution custom) = [p] →
      buildExcludePattern respectVSCodeExcludes vscodePatterns custom =
        some ("**/".data ++ p)) ∧
    (∀ p q u, uniqueFirst (vsContribution respectVSCodeExcludes vscodePatterns ++
          customContribution custom) = p :: q :: u →
      buildExcludePattern respectVSCodeExcludes vscodePatterns custom =
        some ("**/".data ++ '{' :: List.intercalate [','] (p :: q :: u) ++ ['}'])) := by
  set all := vsContribution respectVSCodeExcludes vscodePatterns ++
    customContribution custom with hall
  refine ⟨?_, nodup_uniqueFirstAux [] all, fun p => mem_uniqueFirst all p, ?_, ?_⟩
  · rw [buildExcludePattern]
    by_cases h : all.isEmpty
    · rw [← hall, if_pos h]
      rw [List.isEmpty_iff] at h
      simp [List.append_eq_nil.mp h]
    · rw [← hall, if_neg h]
      rw [List.isEmpty_iff] at h
      have := (List.append_eq_nil (p := vsContribution respectVSCodeExcludes
        vscodePatterns) (q := customContribution custom))
      constructor
      · intro hnone
        exfalso
        cases hu : uniqueFirst all with
        | nil =>
          obtain ⟨x, hx⟩ := List.exists_mem_of_ne_nil all h
          have := (mem_uniqueFirst all x).mpr hx
          rw [hu] at this
          simp at this
        | cons a u =>
          cases u with
          | nil => rw [hu] at hnone; simp at hnone
          | cons b u => rw [hu] at hnone; simp at hnone
      · intro habs
        exact absurd (this.mpr habs) h
  · intro p hp
    rw [buildExcludePattern, ← hall]
    have hne : ¬all.isEmpty = true := by
      intro h
      rw [List.isEmpty_iff] at h
      rw [h] at hp
      simp [uniqueFirst, uniqueFirstAux] at hp
    rw [if_neg hne, hp]
  · intro p q u hp
    rw [buildExcludePattern, ← hall]
    have hne : ¬all.isEmpty = true := by
      intro h
      rw [List.isEmpty_iff] at h
      rw [h] at hp
      simp [uniqueFirst, uniqueFirstAux] at hp
    rw [if_neg hne, hp]

theorem C8_witness :
    buildExcludePattern true [] [] = none ∧
    uniqueFirst (vsContribution true ["node_modules".data] ++
        customContribution []) = ["node_modules".data] ∧
    buildExcludePattern true ["node_modules".data] [] =
      some "**/node_modules".data ∧
    uniqueFirst (vsContribution true ["a".data, "b".data, "a".data] ++
        customContribution []) = ["a".data, "b".data] ∧
    buildExcludePattern true ["a".data, "b".data, "a".data] [] =
      some ("**/".data ++ '{' :: List.intercalate [','] ["a".data, "b".data] ++
        ['}']) := by
  refine ⟨(C8_exclude_builder true [] []).1.mpr (by decide), by decide, ?_,
    by decide, ?_⟩
  · have h := (C8_exclude_builder true ["node_modules".data] []).2.2.2.1
      "node_modules".data (by decide)
    rw [h]
    decide
  · exact (C8_exclude_builder true ["a".data, "b".data, "a".data] []).2.2.2.2
      "a".data "b".data [] (by decide)

/-!
## Lemmas about gitignore discovery
-/

theorem lastSlashIdx_append (xs ys : JStr) :
    ∃ i, lastSlashIdx (xs ++ '/' :: ys) = some i ∧ xs.length ≤ i := by
  induction xs with
  | nil =>
    cases h : lastSlashIdx ys with
    | none => exact ⟨0, by simp [lastSlashIdx, h], Nat.zero_le 0⟩
    | some j => exact ⟨j + 1, by simp [lastSlashIdx, h], Nat.zero_le _⟩
  | cons c xs ih =>
    obtain ⟨i, hi, hle⟩ := ih
    exact ⟨i + 1, by simp [lastSlashIdx, hi], by simpa using Nat.succ_le_succ hle⟩

theorem filterMap_eq_filterMap_filter {α β : Type} (f : α → Option β)
    (p : α → Bool) (l : List α) (h : ∀ x, p x = false → f x = none) :
    l.filterMap f = (l.filter p).filterMap f := by
  induction l with
  | nil => rfl
  | cons x l ih =>
    by_cases hx : p x
    · rw [List.filter_cons_of_pos hx, List.filterMap_cons, List.filterMap_cons,
        ih]
    · rw [List.filter_cons_of_neg hx, List.filterMap_cons,
        h x (Bool.not_eq_true _ ▸ (by simpa using hx)), ih]

/-- C4: the gitignore map only ever consults discovered ignore files that
pass the workspace containment gate (candidates failing
`fsPath.startsWith(workspaceRoot)` contribute nothing), and, for candidates
discovered below the root (as `findFiles` under the workspace root yields
them), every key of the map lies within the workspace root. -/
theorem C4_gitignore_security (workspaceRoot : JStr)
    (found : List GitignoreCandidate) :
    (findAllGitignoreFiles workspaceRoot found =
      findAllGitignoreFiles workspaceRoot
        (found.filter (fun g => startsWithChars g.path workspaceRoot))) ∧
    ((∀ g ∈ found,
        startsWithChars g.path (workspaceRoot ++ ['/']) = true) →
      ∀ kv ∈ findAllGitignoreFiles workspaceRoot found,
        startsWithChars kv.1 workspaceRoot = true) := by
  constructor
  · exact filterMap_eq_filterMap_filter _ _ found (by
      intro g hg
      simp [hg])
  · intro hunder kv hkv
    obtain ⟨g, hgmem, hgeq⟩ := List.mem_filterMap.mp hkv
    have hdeep := (startsWithChars_prefix_iff _ _).mp (hunder g hgmem)
    obtain ⟨rest, hrest⟩ := hdeep
    have hpath : g.path = workspaceRoot ++ '/' :: rest := by
      rw [← hrest]; simp
    by_cases hsw : startsWithChars g.path workspaceRoot
    · rw [if_pos hsw] at hgeq
      cases hread : g.readResult with
      | none => rw [hread] at hgeq; simp at hgeq
      | some content =>
        rw [hread] at hgeq
        have hgeq2 : some (dirNameChars g.path, content) = some kv := hgeq
        have hkv2 : (dirNameChars g.path, content) = kv :=
          Option.some.inj hgeq2
        subst hkv2
        obtain ⟨i, hi, hle⟩ := lastSlashIdx_append workspaceRoot rest
        show startsWithChars (dirNameChars g.path) workspaceRoot = true
        rw [startsWithChars_prefix_iff, dirNameChars, hpath, hi]
        exact List.prefix_take_iff.mpr ⟨⟨'/' :: rest, rfl⟩, hle⟩
    · rw [if_neg hsw] at hgeq
      simp at hgeq

theorem C4_witness :
    (∀ g ∈ ([⟨"/w/a/.gitignore".data, some "*.log".data⟩,
        ⟨"/w/.gitignore".data, some "dist".data⟩] : List GitignoreCandidate),
      startsWithChars g.path ("/w".data ++ ['/']) = true) ∧
    ∀ kv ∈ findAllGitignoreFiles "/w".data
        [⟨"/w/a/.gitignore".data, some "*.log".data⟩,
         ⟨"/w/.gitignore".data, some "dist".data⟩],
      startsWithChars kv.1 "/w".data = true :=
  ⟨by decide,
    (C4_gitignore_security "/w".data
      [⟨"/w/a/.gitignore".data, some "*.log".data⟩,
       ⟨"/w/.gitignore".data, some "dist".data⟩]).2 (by decide)⟩

/-- C2: the hierarchical ignore filter excludes a candidate file exactly when
some ancestor directory, on the chain from the workspace root down to the
file's directory, has a (non-empty) ignore entry whose compiled matcher
matches the file's path relative to that ancestor; and since any match
excludes, testing the ancestors in the reverse order computes the same
per-file decision. -/
theorem C2_hierarchical_ignore (matcher : JStr → JStr → Bool)
    (gitignoreMap : List (SegPath × JStr)) (workspaceRoot : SegPath)
    (filePath : SegPath) (files : List SegPath)
    (hmem : filePath ∈ files)
    (_hroot : workspaceRoot <+: filePath.dropLast) :
    (filePath ∉ filterFilesWithGitignore matcher files workspaceRoot gitignoreMap ↔
      ∃ dir ∈ dirChain workspaceRoot
          ((filePath.dropLast).drop workspaceRoot.length),
        (lookupDir gitignoreMap dir).any
          (fun content =>
            !content.isEmpty && matcher content (relSlashPath dir filePath)) =
          true) ∧
    ((createHierarchicalIgnoreList gitignoreMap workspaceRoot
        ((filePath.dropLast).drop workspaceRoot.length)).reverse.all
        (fun e => !matcher e.content (relSlashPath e.baseDir filePath)) =
      keptByGitignore matcher gitignoreMap workspaceRoot filePath) := by
  constructor
  · rw [filterFilesWithGitignore]
    by_cases hm : gitignoreMap.isEmpty
    · rw [if_pos hm]
      have hmap : gitignoreMap = [] := List.isEmpty_iff.mp hm
      subst hmap
      constructor
      · intro habs; exact absurd hmem habs
      · rintro ⟨dir, _, hany⟩
        simp [lookupDir] at hany
    · rw [if_neg hm]
      have hstep :
          filePath ∉ files.filter
            (keptByGitignore matcher gitignoreMap workspaceRoot) ↔
          ¬(keptByGitignore matcher gitignoreMap workspaceRoot filePath = true) := by
        simp [List.mem_filter, hmem]
      rw [hstep, keptByGitignore]
      rw [show (¬(createHierarchicalIgnoreList gitignoreMap workspaceRoot
            ((filePath.dropLast).drop workspaceRoot.length)).all
            (fun e => !matcher e.content (relSlashPath e.baseDir filePath)) = true) ↔
          ∃ e ∈ createHierarchicalIgnoreList gitignoreMap workspaceRoot
            ((filePath.dropLast).drop workspaceRoot.length),
            matcher e.content (relSlashPath e.baseDir filePath) = true from by
        rw [List.all_eq_true]
        push_neg
        simp]
      constructor
      · rintro ⟨e, hemem, hpred⟩
        obtain ⟨dir, hdir, hf⟩ := List.mem_filterMap.mp hemem
        cases hlu : lookupDir gitignoreMap dir with
        | none => rw [hlu] at hf; simp at hf
        | some c =>
          rw [hlu] at hf
          have hf2 : (if c.isEmpty then none else
              some (⟨c, dir⟩ : IgnoreEntry)) = some e := hf
          by_cases hc : c.isEmpty
          · rw [if_pos hc] at hf2; simp at hf2
          · rw [if_neg hc] at hf2
            have he : e = ⟨c, dir⟩ := (Option.some.inj hf2).symm
            subst he
            refine ⟨dir, hdir, ?_⟩
            rw [hlu, Option.any_some, Bool.and_eq_true]
            exact ⟨by simpa using hc, hpred⟩
      · rintro ⟨dir, hdir, hany⟩
        cases hlu : lookupDir gitignoreMap dir with
        | none => rw [hlu, Option.any_none] at hany; simp at hany
        | some c =>
          rw [hlu, Option.any_some, Bool.and_eq_true] at hany
          obtain ⟨hc, hmatch⟩ := hany
          refine ⟨⟨c, dir⟩, List.mem_filterMap.mpr ⟨dir, hdir, ?_⟩, hmatch⟩
          rw [hlu]
          show (if c.isEmpty then none else
            some (⟨c, dir⟩ : IgnoreEntry)) = some ⟨c, dir⟩
          rw [if_neg (by simpa using hc)]
  · rw [keptByGitignore, List.all_reverse]

theorem C2_witness :
    (["w".data, "sub".data, "x.tmp".data] : SegPath) ∈
        ([["w".data, "sub".data, "x.tmp".data],
          ["w".data, "other".data, "z.tmp".data]] : List SegPath) ∧
    (["w".data] : SegPath) <+:
        (["w".data, "sub".data, "x.tmp".data] : SegPath).dropLast ∧
    (["w".data, "sub".data, "x.tmp".data] : SegPath) ∉
      filterFilesWithGitignore
        (fun content rel => content = "*.tmp".data &&
          startsWithChars rel.reverse "pmt.".data)
        [["w".data, "sub".data, "x.tmp".data],
         ["w".data, "other".data, "z.tmp".data]]
        ["w".data]
        [(["w".data, "sub".data], "*.tmp".data)] := by
  refine ⟨by decide, by decide, ?_⟩
  have h := (C2_hierarchical_ignore
    (fun content rel => content = "*.tmp".data &&
      startsWithChars rel.reverse "pmt.".data)
    [(["w".data, "sub".data], "*.tmp".data)]
    ["w".data]
    ["w".data, "sub".data, "x.tmp".data]
    [["w".data, "sub".data, "x.tmp".data],
     ["w".data, "other".data, "z.tmp".data]]
    (by decide) (by decide)).1
  exact h.mpr (by decide)

/-!
## Lemmas about brace expansion
-/

theorem contains_eq_false_iff (l : JStr) (c : Char) :
    l.contains c = false ↔ c ∉ l := by
  rw [← Bool.not_eq_true, contains_iff_mem]

theorem braceHere_nil : braceHere [] = none := rfl

theorem braceHere_cons_ne (c : Char) (rest : JStr) (h : c ≠ '{') :
    braceHere (c :: rest) = none := by
  simp only [braceHere]
  split
  · rename_i heq
    exact absurd (List.cons.inj heq).1 h
  · rfl

theorem braceParse_cons (c : Char) (rest : JStr) :
    braceParse (c :: rest) =
      match braceParse rest with
      | some (pre, opts, suf) => some (c :: pre, opts, suf)
      | none =>
        match braceHere rest with
        | some (opts, suf) => some ([c], opts, suf)
        | none => none := rfl

theorem braceHere_cons_eq (rest : JStr) :
    braceHere ('{' :: rest) =
      match rest.dropWhile (fun c => c ≠ '}') with
      | '}' :: suf =>
        if (rest.takeWhile (fun c => c ≠ '}')).isEmpty then none
        else some (rest.takeWhile (fun c => c ≠ '}'), suf)
      | _ => none := rfl

theorem braceParse_of_not_mem (l : JStr) (h : '{' ∉ l) :
    braceParse l = none := by
  induction l with
  | nil => rfl
  | cons c rest ih =>
    have hrest : '{' ∉ rest := fun hh => h (List.mem_cons_of_mem c hh)
    rw [braceParse_cons, ih hrest]
    cases rest with
    | nil => rfl
    | cons d r =>
      have hd : d ≠ '{' := fun hh => hrest (hh ▸ List.mem_cons_self d r)
      rw [braceHere_cons_ne d r hd]

theorem takeWhile_ne_stop_append (stop : Char) (l r : JStr) (h : stop ∉ l) :
    (l ++ stop :: r).takeWhile (fun c => c ≠ stop) = l := by
  induction l with
  | nil => simp [List.takeWhile_cons]
  | cons c l ih =>
    have hc : c ≠ stop := fun hh => h (hh ▸ List.mem_cons_self c l)
    have hl : stop ∉ l := fun hh => h (List.mem_cons_of_mem c hh)
    rw [List.cons_append, List.takeWhile_cons, ih hl]
    simp [hc]

theorem dropWhile_ne_stop_append (stop : Char) (l r : JStr) (h : stop ∉ l) :
    (l ++ stop :: r).dropWhile (fun c => c ≠ stop) = stop :: r := by
  induction l with
  | nil => simp [List.dropWhile_cons]
  | cons c l ih =>
    have hc : c ≠ stop := fun hh => h (hh ▸ List.mem_cons_self c l)
    have hl : stop ∉ l := fun hh => h (List.mem_cons_of_mem c hh)
    rw [List.cons_append, List.dropWhile_cons, ih hl]
    simp [hc]

theorem braceHere_exact (opts suf : JStr) (h : '}' ∉ opts) (hne : opts ≠ []) :
    braceHere ('{' :: opts ++ '}' :: suf) = some (opts, suf) := by
  rw [show ('{' :: opts ++ '}' :: suf : JStr) = '{' :: (opts ++ '}' :: suf)
      from rfl,
    braceHere_cons_eq,
    takeWhile_ne_stop_append '}' opts suf h,
    dropWhile_ne_stop_append '}' opts suf h]
  show (if List.isEmpty opts = true then none else some (opts, suf)) =
    some (opts, suf)
  rw [if_neg (by simpa using hne)]

theorem braceParse_append (pre opts suf : JStr) (hpre : pre ≠ [])
    (hoptsL : '{' ∉ opts) (hoptsR : '}' ∉ opts) (hopts : opts ≠ [])
    (hsuf : '{' ∉ suf) :
    braceParse (pre ++ '{' :: opts ++ '}' :: suf) = some (pre, opts, suf) := by
  induction pre with
  | nil => exact absurd rfl hpre
  | cons c pre ih =>
    by_cases hp : pre = []
    · subst hp
      have h1 : braceParse ('{' :: opts ++ '}' :: suf) = none := by
        rw [show ('{' :: opts ++ '}' :: suf : JStr) = '{' :: (opts ++ '}' :: suf)
            from rfl, braceParse_cons]
        have hfree : '{' ∉ opts ++ '}' :: suf := by
          intro hh
          rcases List.mem_append.mp hh with hh | hh
          · exact hoptsL hh
          · rcases List.mem_cons.mp hh with hh | hh
            · exact absurd hh.symm (by decide)
            · exact hsuf hh
        rw [braceParse_of_not_mem _ hfree]
        obtain ⟨d, opts2, rfl⟩ : ∃ d opts2, opts = d :: opts2 := by
          cases opts with
          | nil => exact absurd rfl hopts
          | cons d o => exact ⟨d, o, rfl⟩
        have hd : d ≠ '{' := fun hh => hoptsL (hh ▸ List.mem_cons_self _ _)
        rw [show ((d :: opts2) ++ '}' :: suf : JStr) = d :: (opts2 ++ '}' :: suf)
            from rfl,
          braceHere_cons_ne d _ hd]
      have h2 : braceHere ('{' :: opts ++ '}' :: suf) = some (opts, suf) :=
        braceHere_exact opts suf hoptsR hopts
      show braceParse (c :: ('{' :: opts ++ '}' :: suf)) = some ([c], opts, suf)
      rw [braceParse_cons, h1, h2]
    · have hrec := ih hp
      show braceParse (c :: (pre ++ '{' :: opts ++ '}' :: suf)) =
        some (c :: pre, opts, suf)
      rw [braceParse_cons, hrec]

theorem splitOnComma_of_not_mem (l : JStr) (h : ',' ∉ l) :
    splitOnComma l = [l] := by
  induction l with
  | nil => rfl
  | cons c rest ih =>
    have hc : c ≠ ',' := fun hh => h (hh ▸ List.mem_cons_self c rest)
    have hrest : ',' ∉ rest := fun hh => h (List.mem_cons_of_mem c hh)
    rw [splitOnComma_cons_ne c rest hc, ih hrest]

theorem splitOnComma_pair (a b : JStr) (ha : ',' ∉ a) (hb : ',' ∉ b) :
    splitOnComma (a ++ ',' :: b) = [a, b] := by
  induction a with
  | nil => simp [splitOnComma, splitOnComma_of_not_mem b hb]
  | cons c a ih =>
    have hc : c ≠ ',' := fun hh => ha (hh ▸ List.mem_cons_self c a)
    have ha' : ',' ∉ a := fun hh => ha (List.mem_cons_of_mem c hh)
    rw [show (c :: a) ++ ',' :: b = c :: (a ++ ',' :: b) from rfl,
      splitOnComma_cons_ne c _ hc, ih ha']

theorem matchesPattern_singleton (f p : JStr) :
    matchesPattern f [p] =
      (if p.contains '{' && p.contains '}' then
        match braceParse p with
        | some (pre, opts, suf) =>
          ((splitOnComma opts).map (fun opt => pre ++ trimChars opt ++ suf)).any
            (fun expanded => matchesSinglePattern (baseName f) expanded)
        | none => matchesSinglePattern (baseName f) p
      else matchesSinglePattern (baseName f) p) := by
  simp [matchesPattern]

/-- C9: a pattern whose brace group starts at the very first character (empty
literal prefix) is never brace-expanded, because the expansion regex demands
a non-empty prefix before the brace; the pattern is matched as one single
pattern with literal braces, and in particular `\x7ba,b\x7d.js` does not
match the file name `a.js`. -/
theorem C9_empty_prefix_no_expansion (f rest : JStr) (h : '{' ∉ rest) :
    matchesPattern f ['{' :: rest] =
      matchesSinglePattern (baseName f) ('{' :: rest) ∧
    matchesPattern "a.js".data ['{' :: "a,b\x7d.js".data] = false := by
  constructor
  · rw [matchesPattern_singleton]
    have hp : braceParse ('{' :: rest) = none := by
      rw [braceParse_cons, braceParse_of_not_mem rest h]
      cases rest with
      | nil => rfl
      | cons d r =>
        have hd : d ≠ '{' := fun hh => h (hh ▸ List.mem_cons_self d r)
        rw [braceHere_cons_ne d r hd]
    by_cases hc : ('{' :: rest).contains '{' && ('{' :: rest).contains '}'
    · rw [if_pos hc, hp]
    · rw [if_neg hc]
  · decide

theorem C9_witness :
    ('{' ∉ "a,b\x7d.js".data) ∧
    matchesPattern "a.js".data ['{' :: "a,b\x7d.js".data] =
      matchesSinglePattern (baseName "a.js".data) ('{' :: "a,b\x7d.js".data) ∧
    matchesPattern "a.js".data ['{' :: "a,b\x7d.js".data] = false :=
  ⟨by decide,
    (C9_empty_prefix_no_expansion "a.js".data "a,b\x7d.js".data (by decide)).1,
    (C9_empty_prefix_no_expansion "a.js".data "a,b\x7d.js".data (by decide)).2⟩

/-- C3: for a pattern made of a literal prefix, a single-level brace group
with two alternatives, and a literal suffix, matching the pattern is
equivalent to the disjunction of matching the two expanded patterns
`prefix ++ a ++ suffix` and `prefix ++ b ++ suffix`. -/
theorem C3_brace_equivalence (f pre a b suf : JStr)
    (hpre : pre ≠ []) (hpre1 : '{' ∉ pre) (_hpre2 : '}' ∉ pre)
    (ha1 : '{' ∉ a) (ha2 : '}' ∉ a) (ha3 : ',' ∉ a) (ha4 : trimChars a = a)
    (hb1 : '{' ∉ b) (hb2 : '}' ∉ b) (hb3 : ',' ∉ b) (hb4 : trimChars b = b)
    (hs1 : '{' ∉ suf) (_hs2 : '}' ∉ suf) :
    matchesPattern f [pre ++ '{' :: (a ++ ',' :: b) ++ '}' :: suf] =
      (matchesPattern f [pre ++ a ++ suf] ||
        matchesPattern f [pre ++ b ++ suf]) := by
  have hoptsne : (a ++ ',' :: b : JStr) ≠ [] := by simp
  have hoptsL : '{' ∉ a ++ ',' :: b := by
    intro hh
    rcases List.mem_append.mp hh with hh | hh
    · exact ha1 hh
    · rcases List.mem_cons.mp hh with hh | hh
      · exact absurd hh.symm (by decide)
      · exact hb1 hh
  have hoptsR : '}' ∉ a ++ ',' :: b := by
    intro hh
    rcases List.mem_append.mp hh with hh | hh
    · exact ha2 hh
    · rcases List.mem_cons.mp hh with hh | hh
      · exact absurd hh.symm (by decide)
      · exact hb2 hh
  have hparse :=
    braceParse_append pre (a ++ ',' :: b) suf hpre hoptsL hoptsR hoptsne hs1
  rw [matchesPattern_singleton]
  have hc1 : (pre ++ '{' :: (a ++ ',' :: b) ++ '}' :: suf).contains '{' = true :=
    (contains_iff_mem _ _).mpr (by simp)
  have hc2 : (pre ++ '{' :: (a ++ ',' :: b) ++ '}' :: suf).contains '}' = true :=
    (contains_iff_mem _ _).mpr (by simp)
  rw [if_pos (by rw [hc1, hc2]; rfl), hparse]
  show ((splitOnComma (a ++ ',' :: b)).map
      (fun opt => pre ++ trimChars opt ++ suf)).any
    (fun expanded => matchesSinglePattern (baseName f) expanded) = _
  rw [splitOnComma_pair a b ha3 hb3]
  simp only [List.map_cons, List.map_nil, ha4, hb4, List.any_cons,
    List.any_nil, Bool.or_false]
  have hra : matchesPattern f [pre ++ a ++ suf] =
      matchesSinglePattern (baseName f) (pre ++ a ++ suf) := by
    rw [matchesPattern_singleton]
    have hno : (pre ++ a ++ suf).contains '{' = false := by
      rw [contains_eq_false_iff]
      intro hh
      rcases List.mem_append.mp hh with hh | hh
      · rcases List.mem_append.mp hh with hh | hh
        · exact hpre1 hh
        · exact ha1 hh
      · exact hs1 hh
    rw [hno]
    simp
  have hrb : matchesPattern f [pre ++ b ++ suf] =
      matchesSinglePattern (baseName f) (pre ++ b ++ suf) := by
    rw [matchesPattern_singleton]
    have hno : (pre ++ b ++ suf).contains '{' = false := by
      rw [contains_eq_false_iff]
      intro hh
      rcases List.mem_append.mp hh with hh | hh
      · rcases List.mem_append.mp hh with hh | hh
        · exact hpre1 hh
        · exact hb1 hh
      · exact hs1 hh
    rw [hno]
    simp
  rw [hra, hrb]

theorem C3_witness :
    ("*.".data ≠ ([] : JStr)) ∧
    matchesPattern "b.ts".data
        ["*.".data ++ '{' :: ("js".data ++ ',' :: "ts".data) ++ '}' :: []] =
      (matchesPattern "b.ts".data ["*.".data ++ "js".data ++ []] ||
        matchesPattern "b.ts".data ["*.".data ++ "ts".data ++ []]) ∧
    matchesPattern "b.ts".data
        ["*.".data ++ '{' :: ("js".data ++ ',' :: "ts".data) ++ '}' :: []] =
      true :=
  ⟨by decide,
    C3_brace_equivalence "b.ts".data "*.".data "js".data "ts".data []
      (by decide) (by decide) (by decide) (by decide) (by decide) (by decide)
      (by decide) (by decide) (by decide) (by decide) (by decide)
      (by decide) (by decide),
    by decide⟩

/-!
## Lemmas about the validator
-/

theorem splitOnComma_head (l : JStr) :
    ∃ gs, splitOnComma l = (l.takeWhile (fun c => c ≠ ',')) :: gs := by
  induction l with
  | nil => exact ⟨[], rfl⟩
  | cons c r ih =>
    by_cases hc : c = ','
    · subst hc
      refine ⟨splitOnComma r, ?_⟩
      rw [show splitOnComma (',' :: r) = [] :: splitOnComma r from rfl]
      simp [List.takeWhile_cons]
    · obtain ⟨gs, hgs⟩ := ih
      refine ⟨gs, ?_⟩
      rw [splitOnComma_cons_ne c r hc, hgs]
      simp [List.takeWhile_cons, hc]

theorem prefix_takeWhile_ne_comma (sub l : JStr) (h : sub <+: l)
    (hc : ∀ c ∈ sub, c ≠ ',') :
    sub <+: l.takeWhile (fun c => c ≠ ',') := by
  induction sub generalizing l with
  | nil => simp
  | cons d sub ih =>
    cases l with
    | nil => simp at h
    | cons c l =>
      obtain ⟨rfl, hte⟩ := List.cons_prefix_cons.mp h
      have hd : d ≠ ',' := hc d (List.mem_cons_self d sub)
      rw [List.takeWhile_cons, if_pos (by simp [hd])]
      exact List.cons_prefix_cons.mpr
        ⟨rfl, ih l hte (fun x hx => hc x (List.mem_cons_of_mem d hx))⟩

theorem infix_splitOnComma (sub l : JStr) (h : sub <:+: l) (hne : sub ≠ [])
    (hc : ∀ c ∈ sub, c ≠ ',') :
    ∃ part ∈ splitOnComma l, sub <:+: part := by
  induction l with
  | nil => exact absurd (List.infix_nil.mp h) hne
  | cons c r ih =>
    rcases List.infix_cons_iff.mp h with hpre | hinf
    · by_cases hcc : c = ','
      · subst hcc
        obtain ⟨d, sub', rfl⟩ : ∃ d sub', sub = d :: sub' := by
          cases sub with
          | nil => exact absurd rfl hne
          | cons d s => exact ⟨d, s, rfl⟩
        obtain ⟨rfl, _⟩ := List.cons_prefix_cons.mp hpre
        exact absurd rfl (hc _ (List.mem_cons_self _ _))
      · obtain ⟨gs, hgs⟩ := splitOnComma_head (c :: r)
        refine ⟨(c :: r).takeWhile (fun x => x ≠ ','), ?_, ?_⟩
        · rw [hgs]; exact List.mem_cons_self _ _
        · exact (prefix_takeWhile_ne_comma sub (c :: r) hpre hc).isInfix
    · obtain ⟨part, hpmem, hpinf⟩ := ih hinf
      by_cases hcc : c = ','
      · subst hcc
        exact ⟨part, by
          rw [show splitOnComma (',' :: r) = [] :: splitOnComma r from rfl]
          exact List.mem_cons_of_mem _ hpmem, hpinf⟩
      · cases hsp : splitOnComma r with
        | nil => exact absurd hsp (splitOnComma_ne_nil r)
        | cons g gs =>
          rw [hsp] at hpmem
          rcases List.mem_cons.mp hpmem with rfl | hmem
          · refine ⟨c :: part, ?_, List.infix_cons hpinf⟩
            rw [splitOnComma_cons_ne c r hcc, hsp]
            exact List.mem_cons_self _ _
          · refine ⟨part, ?_, hpinf⟩
            rw [splitOnComma_cons_ne c r hcc, hsp]
            exact List.mem_cons_of_mem _ hmem

theorem infix_dropWhile (p : Char → Bool) (d : Char) (sub l : JStr)
    (h : (d :: sub) <:+: l) (hd : p d = false) :
    (d :: sub) <:+: l.dropWhile p := by
  obtain ⟨x, y, rfl⟩ := h
  rw [show x ++ (d :: sub) ++ y = x ++ ((d :: sub) ++ y) from by
    rw [List.append_assoc]]
  rw [List.dropWhile_append]
  by_cases hx : (x.dropWhile p).isEmpty
  · rw [if_pos hx]
    rw [show (d :: sub) ++ y = d :: (sub ++ y) from rfl,
      List.dropWhile_cons_of_neg (by simp [hd])]
    exact ⟨[], y, by simp⟩
  · rw [if_neg hx]
    exact ⟨x.dropWhile p, y, by rw [List.append_assoc]⟩

theorem infix_trimChars (sub l : JStr) (hne : sub ≠ [])
    (hws : ∀ c ∈ sub, c.isWhitespace = false) (h : sub <:+: l) :
    sub <:+: trimChars l := by
  obtain ⟨d, sub', rfl⟩ : ∃ d sub', sub = d :: sub' := by
    cases sub with
    | nil => exact absurd rfl hne
    | cons d s => exact ⟨d, s, rfl⟩
  have step1 : (d :: sub') <:+: l.dropWhile Char.isWhitespace :=
    infix_dropWhile _ d sub' l h (hws d (List.mem_cons_self _ _))
  have step2 : (d :: sub').reverse <:+: (l.dropWhile Char.isWhitespace).reverse :=
    List.reverse_infix.mpr step1
  obtain ⟨e, rev', hrev⟩ : ∃ e rev', (d :: sub').reverse = e :: rev' := by
    cases hh : (d :: sub').reverse with
    | nil => exact absurd (List.reverse_eq_nil_iff.mp hh) (by simp)
    | cons e r => exact ⟨e, r, rfl⟩
  have he : e.isWhitespace = false := by
    have : e ∈ (d :: sub').reverse := by rw [hrev]; exact List.mem_cons_self _ _
    exact hws e (List.mem_reverse.mp this)
  rw [hrev] at step2
  have step3 := infix_dropWhile Char.isWhitespace e rev' _ step2 he
  rw [← hrev] at step3
  rw [trimChars]
  have := List.reverse_infix.mpr step3
  simpa using this

theorem trim_cons_slash (g : JStr) :
    ∃ t, trimChars ('/' :: g) = '/' :: t := by
  rw [trimChars, List.dropWhile_cons_of_neg (by decide), List.reverse_cons,
    List.dropWhile_append]
  by_cases hx : (g.reverse.dropWhile Char.isWhitespace).isEmpty
  · rw [if_pos hx]
    exact ⟨[], by decide⟩
  · rw [if_neg hx]
    exact ⟨(g.reverse.dropWhile Char.isWhitespace).reverse, by
      rw [List.reverse_append]; rfl⟩

theorem validPattern_iff (p : JStr) :
    validPattern p = true ↔
      (p ≠ [] ∧ (∀ c ∈ p, safeChar c = true) ∧
        hasSubstr ['.', '.'] p = false ∧
        startsWithChars p ['/'] = false ∧
        hasSubstr ['~'] p = false) := by
  rw [validPattern]
  simp only [Bool.and_eq_true, Bool.not_eq_true', List.all_eq_true,
    List.isEmpty_eq_false]
  tauto

theorem validate_false_of_bad_part (s part : JStr)
    (hmem : part ∈ splitOnComma s)
    (hbad : validPattern (trimChars part) = false) :
    validateFilePatterns s = false := by
  rw [validateFilePatterns]
  by_cases h : (trimChars s).isEmpty
  · rw [if_pos h]
  · rw [if_neg h]
    by_contra hall
    rw [Bool.not_eq_false] at hall
    have := List.all_eq_true.mp hall (trimChars part)
      (List.mem_map.mpr ⟨part, hmem, rfl⟩)
    rw [hbad] at this
    simp at this

theorem validate_false_of_infix (sub s : JStr) (hne : sub ≠ [])
    (hcom : ∀ c ∈ sub, c ≠ ',') (hws : ∀ c ∈ sub, c.isWhitespace = false)
    (hbad : ∀ p, sub <:+: p → validPattern p = false) (h : sub <:+: s) :
    validateFilePatterns s = false := by
  obtain ⟨part, hpm, hpi⟩ := infix_splitOnComma sub s h hne hcom
  exact validate_false_of_bad_part s part hpm
    (hbad _ (infix_trimChars sub part hne hws hpi))

theorem invalid_gates_both (s : JStr) (hf : validateFilePatterns s = false) :
    parseAllowPatterns s = none ∧ customContribution s = [] := by
  constructor
  · rw [parseAllowPatterns, if_neg (by rw [hf]; simp)]
  · rw [customContribution]
    by_cases h1 : s.isEmpty = true
    · rw [if_pos h1]
    · rw [if_neg h1]
      by_cases h2 : (trimChars s).isEmpty = true
      · rw [if_pos h2]
      · rw [if_neg h2, if_neg (by rw [hf]; simp)]

/-- C5 counterexample: the claim admits `?` and bracket expressions into
the accepted alphabet, but the source's safety regex contains neither, so
`?.js` and `[ab].js` — which contain no `..`, do not start with `/` and
contain no `~` — are rejected by the validator, refuting the claim as
stated. -/
theorem C5_counterexample :
    validateFilePatterns "?.js".data = false ∧
    validateFilePatterns "[ab].js".data = false ∧
    hasSubstr ['.', '.'] "?.js".data = false ∧
    startsWithChars "?.js".data ['/'] = false ∧
    hasSubstr ['~'] "?.js".data = false ∧
    hasSubstr ['.', '.'] "[ab].js".data = false ∧
    startsWithChars "[ab].js".data ['/'] = false ∧
    hasSubstr ['~'] "[ab].js".data = false := by
  decide

/-- C5 (amended): the validator accepts exactly the pattern strings that
are not blank and whose trimmed comma-separated components are all
nonempty, built from the validator's alphabet — alphanumerics and `*`,
`.`, `,`, `_`, `/`, `-`, with `?` and bracket characters NOT accepted —
free of `..` and `~`, and not starting with `/`; in particular any string
containing `..`, starting with `/`, or containing `~` is rejected, and a
rejected string yields no allow-patterns and no custom exclude patterns
(the same validator gates both). -/
theorem C5_validator (s : JStr) :
    (validateFilePatterns s = true ↔
      ((trimChars s).isEmpty = false ∧
        ∀ p ∈ (splitOnComma s).map trimChars,
          p ≠ [] ∧ (∀ c ∈ p, safeChar c = true) ∧
          hasSubstr ['.', '.'] p = false ∧
          startsWithChars p ['/'] = false ∧
          hasSubstr ['~'] p = false)) ∧
    (hasSubstr ['.', '.'] s = true → validateFilePatterns s = false) ∧
    (startsWithChars s ['/'] = true → validateFilePatterns s = false) ∧
    (hasSubstr ['~'] s = true → validateFilePatterns s = false) ∧
    (validateFilePatterns s = false →
      parseAllowPatterns s = none ∧ customContribution s = []) := by
  refine ⟨?_, ?_, ?_, ?_, invalid_gates_both s⟩
  · rw [validateFilePatterns]
    by_cases h : (trimChars s).isEmpty
    · rw [if_pos h]
      simp [h]
    · rw [if_neg h]
      have hfalse : (trimChars s).isEmpty = false := by
        cases hh : (trimChars s).isEmpty
        · rfl
        · exact absurd hh h
      rw [List.all_eq_true]
      constructor
      · intro hall
        exact ⟨hfalse, fun p hp => (validPattern_iff p).mp (hall p hp)⟩
      · rintro ⟨-, hps⟩ p hp
        exact (validPattern_iff p).mpr (hps p hp)
  · intro hsub
    refine validate_false_of_infix ['.', '.'] s (by simp) (by decide)
      (by decide) ?_ ((hasSubstr_infix_iff _ _).mp hsub)
    intro p hp
    have : hasSubstr ['.', '.'] p = true := (hasSubstr_infix_iff _ _).mpr hp
    simp [validPattern, this]
  · intro hsw
    obtain ⟨r, hr⟩ := (startsWithChars_prefix_iff s ['/']).mp hsw
    have hs : s = '/' :: r := hr.symm
    subst hs
    obtain ⟨gs, hgs⟩ := splitOnComma_head ('/' :: r)
    have hmem : ('/' :: r).takeWhile (fun c => c ≠ ',') ∈
        splitOnComma ('/' :: r) := by
      rw [hgs]; exact List.mem_cons_self _ _
    have htake : ('/' :: r).takeWhile (fun c => c ≠ ',') =
        '/' :: r.takeWhile (fun c => c ≠ ',') := by
      rw [List.takeWhile_cons, if_pos (by decide)]
    obtain ⟨t2, ht2⟩ := trim_cons_slash (r.takeWhile (fun c => c ≠ ','))
    apply validate_false_of_bad_part _ _ hmem
    rw [htake, ht2]
    simp [validPattern, startsWithChars]
  · intro hsub
    refine validate_false_of_infix ['~'] s (by simp) (by decide)
      (by decide) ?_ ((hasSubstr_infix_iff _ _).mp hsub)
    intro p hp
    have : hasSubstr ['~'] p = true := (hasSubstr_infix_iff _ _).mpr hp
    simp [validPattern, this]

theorem C5_witness :
    hasSubstr ['.', '.'] "a..b".data = true ∧
    validateFilePatterns "a..b".data = false ∧
    startsWithChars "/etc".data ['/'] = true ∧
    validateFilePatterns "/etc".data = false ∧
    hasSubstr ['~'] "x~y".data = true ∧
    validateFilePatterns "x~y".data = false ∧
    validateFilePatterns "*.py,*.js".data = true :=
  ⟨by decide, (C5_validator "a..b".data).2.1 (by decide),
    by decide, (C5_validator "/etc".data).2.2.1 (by decide),
    by decide, (C5_validator "x~y".data).2.2.2.1 (by decide),
    (C5_validator "*.py,*.js".data).1.mpr (by decide)⟩

/-- C10: if any comma-separated component of a pattern string is empty
after trimming (trailing comma, adjacent commas), the validator rejects the
whole string, so such a string yields neither allow-patterns nor custom
exclude patterns. -/
theorem C10_empty_component (s : JStr)
    (h : [] ∈ (splitOnComma s).map trimChars) :
    validateFilePatterns s = false ∧ parseAllowPatterns s = none ∧
      customContribution s = [] := by
  obtain ⟨part, hpm, hpt⟩ := List.mem_map.mp h
  have hval : validateFilePatterns s = false :=
    validate_false_of_bad_part s part hpm (by rw [hpt]; decide)
  exact ⟨hval, invalid_gates_both s hval⟩

theorem C10_witness :
    ([] ∈ (splitOnComma "*.js,".data).map trimChars) ∧
    validateFilePatterns "*.js,".data = false ∧
    parseAllowPatterns "*.js,".data = none ∧
    customContribution "*.js,".data = [] :=
  ⟨by decide,
    (C10_empty_component "*.js,".data (by decide)).1,
    (C10_empty_component "*.js,".data (by decide)).2.1,
    (C10_empty_component "*.js,".data (by decide)).2.2⟩
